import Mathlib

/-!
Verification of the RAG document question-answering application.

The frontend TypeScript sources under src/ are embedded shallowly: text
is List Char, fallible operations return Except, and the
server-sent-event reader of APIClient.queryStream is modelled as a fold
over the successive decoded reads.  Components of the backend that are
documented but whose code is not under src/ (chunker, embedding cache,
hybrid retriever) are modelled from the spec, as marked in their doc
comments.
-/

namespace RagSystem

/-! ### Line splitting

APIClient.queryStream (src/unnamed/part_002, lines 103-117) repeatedly
does buffer.split at the newline character and then pops the final
element back into the buffer.  splitSep returns exactly that
decomposition: the complete separator-terminated segments, and the
trailing segment after the last separator.  The same splitting, with the
dot character, underlies the extension test of the uploader. -/

/-- Splits a character list at a separator: the first component is the
list of complete segments, each one ended by an occurrence of the
separator, and the second component is the trailing segment after the
last separator. -/
def splitSep (sep : Char) : List Char → List (List Char) × List Char
  | [] => ([], [])
  | c :: cs =>
    let r := splitSep sep cs
    if c = sep then ([] :: r.1, r.2)
    else
      match r with
      | ([], p) => ([], c :: p)
      | (l :: ls, p) => ((c :: l) :: ls, p)

/-- Combining function describing how splitSep acts on an appended
text: the trailing segment of the left part merges with the first
segment of the right part. -/
def splitSepMerge (x y : List (List Char) × List Char) :
    List (List Char) × List Char :=
  match y.1 with
  | [] => (x.1, x.2 ++ y.2)
  | l :: ls => (x.1 ++ (x.2 ++ l) :: ls, y.2)

theorem splitSep_append (sep : Char) (x y : List Char) :
    splitSep sep (x ++ y) = splitSepMerge (splitSep sep x) (splitSep sep y) := by
  induction x with
  | nil =>
    rcases hy : splitSep sep y with ⟨ly, py⟩
    cases ly <;> simp [splitSep, splitSepMerge, hy]
  | cons c cs ih =>
    rcases hcs : splitSep sep cs with ⟨lc, pc⟩
    rcases hy : splitSep sep y with ⟨ly, py⟩
    rw [hcs, hy] at ih
    rw [List.cons_append]
    simp only [splitSep, ih, hcs, splitSepMerge]
    by_cases hc : c = sep
    · cases ly <;> simp [hc]
    · cases lc <;> cases ly <;> simp [hc, List.cons_append]

/-- The trailing segment returned by splitSep never contains the
separator. -/
theorem splitSep_snd_not_mem (sep : Char) (x : List Char) :
    sep ∉ (splitSep sep x).2 := by
  induction x with
  | nil => simp [splitSep]
  | cons c cs ih =>
    rcases hcs : splitSep sep cs with ⟨lc, pc⟩
    rw [hcs] at ih
    by_cases hc : c = sep
    · simp [splitSep, hc, hcs, ih]
    · cases lc with
      | nil =>
        simp only [splitSep, hcs, if_neg hc]
        intro hm
        rcases List.mem_cons.mp hm with h | h
        · exact hc h.symm
        · exact ih h
      | cons l ls => simpa [splitSep, hcs, hc] using ih

/-- A text containing no separator splits into no complete segment and
itself as the trailing segment. -/
theorem splitSep_of_not_mem (sep : Char) (x : List Char) (h : sep ∉ x) :
    splitSep sep x = ([], x) := by
  induction x with
  | nil => rfl
  | cons c cs ih =>
    have hc : ¬c = sep := fun hcc => h (hcc ▸ List.mem_cons_self c cs)
    have hcs : sep ∉ cs := fun hm => h (List.mem_cons_of_mem c hm)
    simp [splitSep, ih hcs, hc]

/-! ### The server-sent-event reader of APIClient.queryStream

From src/unnamed/part_002, lines 97-118: the reader accumulates decoded
reads into a buffer, splits the buffer at newlines keeping the trailing
partial line, and emits the payload of every complete line that starts
with the marker.  The JSON parse applied to each payload in the source
is a fixed function of the payload text, so event sequences are equal
exactly when the emitted payload sequences are equal; the model
therefore yields the payload text. -/

/-- The literal marker tested by line.startsWith in queryStream. -/
def dataMark : List Char := "data: ".toList

/-- Payload extraction for one complete line: lines starting with the
marker yield the text after the first six characters (line.slice 6 in
the source); all other lines are ignored. -/
def dataPayload (line : List Char) : Option (List Char) :=
  if dataMark.isPrefixOf line then some (line.drop 6) else none

/-- The read loop of queryStream: each decoded read is appended to the
buffer, complete lines are emitted through dataPayload, and the trailing
partial line becomes the next buffer.  The final buffer is discarded
when the stream ends, exactly as in the source. -/
def sseRun (buffer : List Char) : List (List Char) → List (List Char)
  | [] => []
  | r :: rs =>
    let s := splitSep '\n' (buffer ++ r)
    s.1.filterMap dataPayload ++ sseRun s.2 rs

/-- Events yielded by queryStream for a given partition of the response
body into reads, starting from the empty buffer of the source. -/
def queryStreamEvents (reads : List (List Char)) : List (List Char) :=
  sseRun [] reads

/-- Reference semantics: the payloads of the complete marker lines of
the whole response text, in order. -/
def sseEventsOfText (s : List Char) : List (List Char) :=
  (splitSep '\n' s).1.filterMap dataPayload

theorem sseRun_eq_ofText (reads : List (List Char)) : ∀ buffer : List Char,
    '\n' ∉ buffer → sseRun buffer reads = sseEventsOfText (buffer ++ reads.flatten) := by
  induction reads with
  | nil =>
    intro buffer hb
    simp [sseRun, sseEventsOfText, splitSep_of_not_mem _ _ hb]
  | cons r rs ih =>
    intro buffer hb
    rcases hbr : splitSep '\n' (buffer ++ r) with ⟨ls, p⟩
    have hp : '\n' ∉ p := by
      have hs := splitSep_snd_not_mem '\n' (buffer ++ r)
      rw [hbr] at hs
      exact hs
    simp only [sseRun, hbr]
    rw [ih p hp]
    rcases hf : splitSep '\n' rs.flatten with ⟨lf, pf⟩
    simp only [sseEventsOfText, List.flatten_cons]
    rw [← List.append_assoc, splitSep_append '\n' (buffer ++ r) rs.flatten, hbr, hf]
    rw [splitSep_append '\n' p rs.flatten, splitSep_of_not_mem '\n' p hp, hf]
    cases lf <;> simp [splitSepMerge, List.filterMap_append]

/-- C8: for any two partitions of the same response body into
successive reads, queryStream yields the identical event sequence, and
that sequence is exactly the payloads of the complete lines beginning
with the data marker, in stream order, all other lines ignored. -/
theorem queryStream_partition_invariant (r₁ r₂ : List (List Char))
    (h : r₁.flatten = r₂.flatten) :
    queryStreamEvents r₁ = queryStreamEvents r₂ ∧
    queryStreamEvents r₁ = sseEventsOfText r₁.flatten := by
  have e1 := sseRun_eq_ofText r₁ [] (by simp)
  have e2 := sseRun_eq_ofText r₂ [] (by simp)
  rw [List.nil_append] at e1 e2
  exact ⟨by rw [queryStreamEvents, queryStreamEvents, e1, e2, h], e1⟩

/-- Witness for C8 at a concrete split of a concrete body. -/
theorem queryStream_partition_invariant_witness :
    (["data: he".toList, "llo\nrest".toList] : List (List Char)).flatten
        = (["data: hello\nrest".toList] : List (List Char)).flatten ∧
    queryStreamEvents ["data: he".toList, "llo\nrest".toList]
        = queryStreamEvents ["data: hello\nrest".toList] :=
  ⟨rfl, (queryStream_partition_invariant _ _ rfl).1⟩

/-! ### The chat interface

From src/frontend/components/DocumentManager.tsx, lines 168-249
(ChatInterface).  Messages carry a role, a content text and a source
list; the metadata object of a source is represented by its declared
fields.  The score field, a number only displayed by the UI, is carried
as an integer-valued placeholder since no arithmetic is performed on
it in the embedded code. -/

inductive Role
  | user
  | assistant
deriving DecidableEq

structure Source where
  text : List Char
  filename : Option (List Char)
  page : Option Nat
  chunkIndex : Option Nat
  score : Int
deriving DecidableEq

/-- Parsed stream events dispatched on data.type in handleSubmit;
payloads with any other type tag are ignored and modelled by other. -/
inductive StreamEvent
  | sources (sources : List Source)
  | chunk (content : List Char)
  | error (message : List Char)
  | other
deriving DecidableEq

structure Msg where
  role : Role
  content : List Char
  sources : List Source
deriving DecidableEq

/-- The error message shown in the catch branch of handleSubmit. -/
def errorBanner (m : List Char) : List Char :=
  "⚠️ Error: ".toList ++ m

/-- The event loop of handleSubmit: on a sources event the local
sources variable is overwritten, on a chunk event the accumulated answer
is extended and the final message slot is rewritten with the current
answer and sources, and on an error event the final message slot is
replaced by the error banner and processing stops. -/
def runStream (msgs : List Msg) (fullAnswer : List Char)
    (srcs : List Source) : List StreamEvent → List Msg
  | [] => msgs
  | StreamEvent.sources ss :: es => runStream msgs fullAnswer ss es
  | StreamEvent.chunk c :: es =>
      runStream (msgs.dropLast ++ [⟨Role.assistant, fullAnswer ++ c, srcs⟩])
        (fullAnswer ++ c) srcs es
  | StreamEvent.error m :: _ =>
      msgs.dropLast ++ [⟨Role.assistant, errorBanner m, []⟩]
  | StreamEvent.other :: es => runStream msgs fullAnswer srcs es

/-- The request body type of the API client (src/unnamed/part_002,
lines 4-9); optional fields are absent when undefined. -/
structure QueryRequest where
  query : List Char
  top_k : Option Nat
  filename : Option (List Char)
  stream : Option Bool
deriving DecidableEq

/-- The request literal built by handleSubmit lines 210-215: the typed
question, top_k 5, the currently selected document and stream true. -/
def buildStreamRequest (input : List Char) (selectedDocument : Option (List Char)) :
    QueryRequest :=
  ⟨input, some 5, selectedDocument, some true⟩

/-- Whitespace for the trim guard; the source uses the JavaScript trim,
restricted here to its ASCII white space characters. -/
def isJsSpace (c : Char) : Bool :=
  c = ' ' || c = '\t' || c = '\n' || c = '\r' ||
    c = Char.ofNat 11 || c = Char.ofNat 12

def jsTrim (s : List Char) : List Char :=
  ((s.dropWhile isJsSpace).reverse.dropWhile isJsSpace).reverse

structure ChatState where
  messages : List Msg
  isLoading : Bool
deriving DecidableEq

/-- The guard of handleSubmit line 199: blocked when the trimmed input
is empty or a previous query is still in flight. -/
def submitBlocked (s : ChatState) (input : List Char) : Bool :=
  (jsTrim input).isEmpty || s.isLoading

/-- One submission of the chat form, given the events later delivered
by the stream: when the guard blocks, the state is unchanged and no
request is issued; otherwise the user message and an empty assistant
placeholder are appended, the stream request is issued and the event
loop runs, after which loading ends. -/
def submitStep (s : ChatState) (input : List Char)
    (selectedDocument : Option (List Char)) (events : List StreamEvent) :
    ChatState × Option QueryRequest :=
  if submitBlocked s input then (s, none)
  else
    (⟨runStream
        (s.messages ++ [⟨Role.user, input, []⟩] ++ [⟨Role.assistant, [], []⟩])
        [] [] events,
      false⟩,
     some (buildStreamRequest input selectedDocument))

/-- States of the chat interface reachable from the initial empty
transcript: completed submissions, and the intermediate states observed
while a stream is still being consumed (any possible prefix of the
event stream, with the loading flag still set). -/
inductive Reachable : ChatState → Prop
  | init : Reachable ⟨[], false⟩
  | submit (s : ChatState) (input : List Char) (sel : Option (List Char))
      (events : List StreamEvent) :
      Reachable s → Reachable (submitStep s input sel events).1
  | streaming (s : ChatState) (input : List Char) (events : List StreamEvent) :
      Reachable s → submitBlocked s input = false →
      Reachable
        ⟨runStream
           (s.messages ++ [⟨Role.user, input, []⟩] ++ [⟨Role.assistant, [], []⟩])
           [] [] events,
         true⟩

theorem runStream_user_mem (events : List StreamEvent) :
    ∀ (msgs : List Msg) (fa : List Char) (srcs : List Source) (m : Msg),
      m ∈ runStream msgs fa srcs events → m.role = Role.user → m ∈ msgs := by
  induction events with
  | nil => intro msgs fa srcs m hm _; exact hm
  | cons e es ih =>
    intro msgs fa srcs m hm hr
    cases e with
    | sources ss => exact ih msgs fa ss m hm hr
    | chunk c =>
      have h2 := ih _ _ _ m hm hr
      rcases List.mem_append.mp h2 with h | h
      · exact List.dropLast_subset msgs h
      · simp only [List.mem_singleton] at h
        rw [h] at hr
        cases hr
    | error emsg =>
      rcases List.mem_append.mp hm with h | h
      · exact List.dropLast_subset msgs h
      · simp only [List.mem_singleton] at h
        rw [h] at hr
        cases hr
    | other => exact ih msgs fa srcs m hm hr

theorem submitBlocked_false_parts (s : ChatState) (input : List Char)
    (hb : submitBlocked s input = false) :
    jsTrim input ≠ [] ∧ s.isLoading = false := by
  rw [submitBlocked, Bool.or_eq_false_iff] at hb
  refine ⟨fun h => ?_, hb.2⟩
  have h1 := hb.1
  rw [h] at h1
  simp at h1

theorem user_messages_nonblank :
    ∀ st : ChatState, Reachable st →
      ∀ m ∈ st.messages, m.role = Role.user → jsTrim m.content ≠ [] := by
  intro st hst
  induction hst with
  | init => intro m hm; cases hm
  | submit s input sel events _ ih =>
    rw [submitStep]
    cases hb : submitBlocked s input with
    | true => simpa using ih
    | false =>
      simp only [Bool.false_eq_true, if_false]
      intro m hm hr
      have hmem := runStream_user_mem events _ [] [] m hm hr
      rcases List.mem_append.mp hmem with h | h
      · rcases List.mem_append.mp h with h1 | h1
        · exact ih m h1 hr
        · simp only [List.mem_singleton] at h1
          rw [h1]
          exact (submitBlocked_false_parts s input hb).1
      · simp only [List.mem_singleton] at h
        rw [h] at hr
        cases hr
  | streaming s input events _ hb ih =>
    intro m hm hr
    have hmem := runStream_user_mem events _ [] [] m hm hr
    rcases List.mem_append.mp hmem with h | h
    · rcases List.mem_append.mp h with h1 | h1
      · exact ih m h1 hr
      · simp only [List.mem_singleton] at h1
        rw [h1]
        exact (submitBlocked_false_parts s input hb).1
    · simp only [List.mem_singleton] at h
      rw [h] at hr
      cases hr

def isChunk : StreamEvent → Bool
  | StreamEvent.chunk _ => true
  | _ => false

def chunkOrOther : StreamEvent → Bool
  | StreamEvent.chunk _ => true
  | StreamEvent.other => true
  | _ => false

def hasChunk : List StreamEvent → Bool
  | [] => false
  | StreamEvent.chunk _ :: _ => true
  | _ :: es => hasChunk es

/-- The content fields of the chunk events of a stream, in order. -/
def chunkContents : List StreamEvent → List (List Char)
  | [] => []
  | StreamEvent.chunk c :: es => c :: chunkContents es
  | _ :: es => chunkContents es

theorem chunkContents_of_no_chunk (pre : List StreamEvent)
    (h : hasChunk pre = false) : chunkContents pre = [] := by
  induction pre with
  | nil => rfl
  | cons e es ih =>
    cases e with
    | chunk c => cases h
    | sources ss => exact ih h
    | error m => exact ih h
    | other => exact ih h

theorem chunkContents_append (xs ys : List StreamEvent) :
    chunkContents (xs ++ ys) = chunkContents xs ++ chunkContents ys := by
  induction xs with
  | nil => rfl
  | cons e es ih =>
    cases e with
    | chunk c => simp [chunkContents, ih]
    | sources ss => simp [chunkContents, ih]
    | error m => simp [chunkContents, ih]
    | other => simp [chunkContents, ih]

theorem runStream_chunkOrOther (pre : List StreamEvent)
    (h : ∀ e ∈ pre, chunkOrOther e = true) :
    ∀ (msgs : List Msg) (fa : List Char) (srcs : List Source)
      (rest : List StreamEvent),
      runStream msgs fa srcs (pre ++ rest) =
        runStream
          (if hasChunk pre then
             msgs.dropLast ++
               [⟨Role.assistant, fa ++ (chunkContents pre).flatten, srcs⟩]
           else msgs)
          (fa ++ (chunkContents pre).flatten) srcs rest := by
  induction pre with
  | nil => intro msgs fa srcs rest; simp [hasChunk, chunkContents]
  | cons e es ih =>
    intro msgs fa srcs rest
    have he : chunkOrOther e = true := h e (List.mem_cons_self e es)
    have hes : ∀ x ∈ es, chunkOrOther x = true :=
      fun x hx => h x (List.mem_cons_of_mem e hx)
    cases e with
    | sources ss => cases he
    | error m => cases he
    | other =>
      simp only [List.cons_append, runStream, List.append_eq]
      rw [ih hes]
      simp [hasChunk, chunkContents]
    | chunk c =>
      simp only [List.cons_append, runStream, List.append_eq]
      rw [ih hes]
      simp only [hasChunk, chunkContents, List.flatten_cons, if_true]
      cases hany : hasChunk es with
      | true =>
        simp only [if_true, List.dropLast_concat, List.append_assoc]
      | false =>
        rw [chunkContents_of_no_chunk es hany]
        simp

/-- C1 (amended): when the stream has no error events, exactly one
sources event and at least one chunk event after it, the assistant
message appended to the transcript carries the concatenation of all
chunk contents, in arrival order, and exactly the sources array of the
sources event as its citations. -/
theorem chat_stream_answer_and_citations (s : ChatState) (input : List Char)
    (sel : Option (List Char)) (pre post : List StreamEvent) (ss : List Source)
    (hguard : submitBlocked s input = false)
    (hpre : ∀ e ∈ pre, chunkOrOther e = true)
    (hpost : ∀ e ∈ post, chunkOrOther e = true)
    (hchunk : hasChunk post = true) :
    (submitStep s input sel (pre ++ StreamEvent.sources ss :: post)).1.messages
      = s.messages ++
          [⟨Role.user, input, []⟩,
           ⟨Role.assistant,
            (chunkContents (pre ++ StreamEvent.sources ss :: post)).flatten, ss⟩] := by
  simp only [submitStep, hguard, Bool.false_eq_true, if_false]
  rw [runStream_chunkOrOther pre hpre]
  simp only [runStream]
  conv_lhs => rw [show post = post ++ [] from (List.append_nil post).symm]
  rw [runStream_chunkOrOther post hpost]
  simp only [runStream, hchunk, if_true]
  rw [chunkContents_append]
  simp only [chunkContents]
  cases hpc : hasChunk pre with
  | true =>
    simp only [if_true, List.dropLast_concat, List.flatten_append,
      List.nil_append, List.append_assoc]
    rw [← List.append_assoc, List.dropLast_concat]
    simp
  | false =>
    rw [chunkContents_of_no_chunk pre hpc]
    simp only [Bool.false_eq_true, if_false, List.dropLast_concat]
    simp

/-- Concrete source value used in the examples below. -/
def exSource : Source :=
  ⟨"doc text".toList, some "doc.md".toList, none, none, 1⟩

/-- Counterexample to C1 as stated: when the sources event arrives
after the last chunk event, the assistant message shown keeps its empty
citations instead of the sources array carried by the stream. -/
theorem chat_citations_counterexample :
    (submitStep ⟨[], false⟩ "hi".toList none
        [StreamEvent.chunk "A".toList,
         StreamEvent.sources [exSource]]).1.messages.getLast?
      = some ⟨Role.assistant, "A".toList, []⟩ ∧
    ([] : List Source) ≠ [exSource] := by
  constructor
  · decide
  · decide

/-- Witness for the amended C1 at a concrete stream. -/
theorem chat_stream_answer_and_citations_witness :
    (submitStep ⟨[], false⟩ "hi".toList none
        ([StreamEvent.other] ++ StreamEvent.sources [exSource] ::
          [StreamEvent.chunk "ab".toList, StreamEvent.chunk "c".toList])).1.messages
      = (⟨[], false⟩ : ChatState).messages ++
          [⟨Role.user, "hi".toList, []⟩,
           ⟨Role.assistant,
            (chunkContents
              ([StreamEvent.other] ++ StreamEvent.sources [exSource] ::
                [StreamEvent.chunk "ab".toList, StreamEvent.chunk "c".toList])).flatten,
            [exSource]⟩] :=
  chat_stream_answer_and_citations ⟨[], false⟩ "hi".toList none
    [StreamEvent.other]
    [StreamEvent.chunk "ab".toList, StreamEvent.chunk "c".toList]
    [exSource] (by decide) (by decide) (by decide) rfl

/-- Minimal JSON value shape for the serialized request fields. -/
inductive Jval
  | str (s : List Char)
  | num (n : Nat)
  | bool (b : Bool)
deriving DecidableEq

/-- The key-value pairs produced by JSON.stringify on a QueryRequest:
fields holding undefined are omitted from the serialization. -/
def jsonFieldsOfRequest (r : QueryRequest) : List (List Char × Jval) :=
  [("query".toList, Jval.str r.query)]
    ++ (match r.top_k with
        | some k => [("top_k".toList, Jval.num k)]
        | none => [])
    ++ (match r.filename with
        | some f => [("filename".toList, Jval.str f)]
        | none => [])
    ++ (match r.stream with
        | some b => [("stream".toList, Jval.bool b)]
        | none => [])

/-- C6: every submitted question issues a stream request with top_k 5;
when a document is selected its filename is carried in the serialized
request, and when none is selected the filename field is absent. -/
theorem chat_query_request_shape (s : ChatState) (input : List Char)
    (sel : Option (List Char)) (events : List StreamEvent)
    (hguard : submitBlocked s input = false) :
    (submitStep s input sel events).2 = some (buildStreamRequest input sel) ∧
    (buildStreamRequest input sel).top_k = some 5 ∧
    (∀ d, sel = some d →
       ("filename".toList, Jval.str d)
         ∈ jsonFieldsOfRequest (buildStreamRequest input sel)) ∧
    (sel = none →
       ∀ v, ("filename".toList, v) ∉ jsonFieldsOfRequest (buildStreamRequest input sel)) := by
  refine ⟨by simp [submitStep, hguard], rfl, ?_, ?_⟩
  · intro d hd
    subst hd
    simp [jsonFieldsOfRequest, buildStreamRequest]
  · intro hn v hmem
    subst hn
    simp only [jsonFieldsOfRequest, buildStreamRequest, List.mem_append,
      List.mem_singleton, List.not_mem_nil, or_false] at hmem
    rcases hmem with (h | h) | h
    · exact absurd (show "filename".toList = "query".toList from congrArg Prod.fst h)
        (by decide)
    · exact absurd (show "filename".toList = "top_k".toList from congrArg Prod.fst h)
        (by decide)
    · exact absurd (show "filename".toList = "stream".toList from congrArg Prod.fst h)
        (by decide)

/-- Witness for C6 with a selected and an unselected document. -/
theorem chat_query_request_shape_witness :
    (submitStep ⟨[], false⟩ "q".toList (some "a.md".toList) []).2
        = some (buildStreamRequest "q".toList (some "a.md".toList)) ∧
    (buildStreamRequest "q".toList (some "a.md".toList)).top_k = some 5 ∧
    ("filename".toList, Jval.str "a.md".toList)
        ∈ jsonFieldsOfRequest (buildStreamRequest "q".toList (some "a.md".toList)) ∧
    ("filename".toList, Jval.str "x".toList)
        ∉ jsonFieldsOfRequest (buildStreamRequest "q".toList none) :=
  ⟨(chat_query_request_shape ⟨[], false⟩ "q".toList (some "a.md".toList) [] (by decide)).1,
   (chat_query_request_shape ⟨[], false⟩ "q".toList (some "a.md".toList) [] (by decide)).2.1,
   (chat_query_request_shape ⟨[], false⟩ "q".toList (some "a.md".toList) [] (by decide)).2.2.1
     "a.md".toList rfl,
   (chat_query_request_shape ⟨[], false⟩ "q".toList none [] (by decide)).2.2.2 rfl
     (Jval.str "x".toList)⟩

/-- C10: in every reachable chat state, every user message has
non-whitespace content, and a blocked submission, by blank input or an
in-flight query, leaves the state unchanged and issues no request. -/
theorem chat_guard_and_invariant :
    (∀ st : ChatState, Reachable st →
       ∀ m ∈ st.messages, m.role = Role.user → jsTrim m.content ≠ []) ∧
    (∀ (s : ChatState) (input : List Char) (sel : Option (List Char))
       (events : List StreamEvent),
       submitBlocked s input = true → submitStep s input sel events = (s, none)) :=
  ⟨user_messages_nonblank,
   fun s input sel events hb => by simp [submitStep, hb]⟩

/-- Witness for C10: a blank submission is a no-op, and the user
message of a completed concrete submission is non-blank. -/
theorem chat_guard_and_invariant_witness :
    submitStep ⟨[], false⟩ "   ".toList none [] = (⟨[], false⟩, none) ∧
    jsTrim "hi".toList ≠ [] :=
  ⟨chat_guard_and_invariant.2 ⟨[], false⟩ "   ".toList none [] (by decide),
   chat_guard_and_invariant.1 (submitStep ⟨[], false⟩ "hi".toList none []).1
     (Reachable.submit ⟨[], false⟩ "hi".toList none [] Reachable.init)
     ⟨Role.user, "hi".toList, []⟩ (by decide) rfl⟩

/-! ### Error handling of the API client

From src/unnamed/part_002: each operation checks response.ok and, when
it is false, throws an Error whose message is the detail field of the
parsed error body when that is present and non-empty, and otherwise the
fixed fallback string of the operation; the JavaScript or-operator
treats an empty detail string as falsy. -/

structure HttpResponse where
  ok : Bool
  detail : Option (List Char)
deriving DecidableEq

/-- The JavaScript expression detail-or-fallback: absent or empty
detail falls back. -/
def jsFalsyOr (d : Option (List Char)) (fallback : List Char) : List Char :=
  match d with
  | some s => if s = [] then fallback else s
  | none => fallback

def uploadDocumentResult (resp : HttpResponse) : Except (List Char) Unit :=
  if resp.ok then Except.ok ()
  else Except.error (jsFalsyOr resp.detail "Upload failed".toList)

def queryResult (resp : HttpResponse) : Except (List Char) Unit :=
  if resp.ok then Except.ok ()
  else Except.error (jsFalsyOr resp.detail "Query failed".toList)

def listDocumentsResult (resp : HttpResponse) : Except (List Char) Unit :=
  if resp.ok then Except.ok ()
  else Except.error (jsFalsyOr resp.detail "Failed to list documents".toList)

def deleteDocumentResult (resp : HttpResponse) : Except (List Char) Unit :=
  if resp.ok then Except.ok ()
  else Except.error (jsFalsyOr resp.detail "Failed to delete document".toList)

/-- C5 (amended): every non-ok response makes the operation throw an
Error carrying the server detail message when present and non-empty,
and the fixed per-operation fallback string when the detail is absent
or empty; an ok response succeeds, and no other recovery action exists,
the operation being a pure function of the single response. -/
theorem apiclient_error_detail (resp : HttpResponse) (d : List Char) :
    (resp.ok = false → resp.detail = some d → d ≠ [] →
       uploadDocumentResult resp = Except.error d ∧
       queryResult resp = Except.error d ∧
       listDocumentsResult resp = Except.error d ∧
       deleteDocumentResult resp = Except.error d) ∧
    (resp.ok = false → (resp.detail = none ∨ resp.detail = some []) →
       uploadDocumentResult resp = Except.error "Upload failed".toList ∧
       queryResult resp = Except.error "Query failed".toList ∧
       listDocumentsResult resp = Except.error "Failed to list documents".toList ∧
       deleteDocumentResult resp = Except.error "Failed to delete document".toList) ∧
    (resp.ok = true →
       uploadDocumentResult resp = Except.ok () ∧
       queryResult resp = Except.ok () ∧
       listDocumentsResult resp = Except.ok () ∧
       deleteDocumentResult resp = Except.ok ()) := by
  refine ⟨fun hok hd hne => ?_, fun hok hd => ?_, fun hok => ?_⟩
  · simp [uploadDocumentResult, queryResult, listDocumentsResult,
      deleteDocumentResult, jsFalsyOr, hok, hd, hne]
  · rcases hd with hd | hd <;>
      simp [uploadDocumentResult, queryResult, listDocumentsResult,
        deleteDocumentResult, jsFalsyOr, hok, hd]
  · simp [uploadDocumentResult, queryResult, listDocumentsResult,
      deleteDocumentResult, hok]

/-- Witness for C5 at concrete responses. -/
theorem apiclient_error_detail_witness :
    uploadDocumentResult ⟨false, some "boom".toList⟩ = Except.error "boom".toList ∧
    queryResult ⟨false, none⟩ = Except.error "Query failed".toList ∧
    listDocumentsResult ⟨true, none⟩ = Except.ok () :=
  ⟨((apiclient_error_detail ⟨false, some "boom".toList⟩ "boom".toList).1
      rfl rfl (by decide)).1,
   ((apiclient_error_detail ⟨false, none⟩ []).2.1 rfl (Or.inl rfl)).2.1,
   ((apiclient_error_detail ⟨true, none⟩ []).2.2 rfl).2.2.1⟩

/-- Counterexample to C5 as stated: a present but empty detail string
is replaced by the fallback, so the thrown message is not the
server-supplied detail. -/
theorem apiclient_empty_detail_counterexample :
    uploadDocumentResult ⟨false, some []⟩ = Except.error "Upload failed".toList ∧
    ("Upload failed".toList : List Char) ≠ [] := by
  constructor
  · rfl
  · decide

/-! ### Endpoint routing of the API client

From src/unnamed/part_002: the URL and method of each fetch call, with
the delete path building its final segment through encodeURIComponent.
The encoder is modelled after the JavaScript builtin: unreserved
characters pass through, every other character is replaced by the
percent-encoded bytes of its UTF-8 encoding. -/

def utf8Bytes (c : Char) : List Nat :=
  let n := c.toNat
  if n < 128 then [n]
  else if n < 2048 then [192 + n / 64, 128 + n % 64]
  else if n < 65536 then [224 + n / 4096, 128 + (n / 64) % 64, 128 + n % 64]
  else [240 + n / 262144, 128 + (n / 4096) % 64, 128 + (n / 64) % 64, 128 + n % 64]

def hexDigit (n : Nat) : Char :=
  if n < 10 then Char.ofNat (48 + n) else Char.ofNat (55 + n)

def percentEncodeByte (b : Nat) : List Char :=
  ['%', hexDigit (b / 16), hexDigit (b % 16)]

def isUnreservedURIChar (c : Char) : Bool :=
  c.isAlphanum || c = '-' || c = '_' || c = '.' || c = '!' || c = '~' ||
    c = '*' || c = Char.ofNat 39 || c = '(' || c = ')'

def encodeURIComponent (s : List Char) : List Char :=
  (s.map fun c =>
    if isUnreservedURIChar c then [c]
    else ((utf8Bytes c).map percentEncodeByte).flatten).flatten

structure HttpRequestLine where
  method : List Char
  url : List Char
deriving DecidableEq

def uploadRequestLine (base : List Char) : HttpRequestLine :=
  ⟨"POST".toList, base ++ "/upload".toList⟩

def queryRequestLine (base : List Char) : HttpRequestLine :=
  ⟨"POST".toList, base ++ "/query".toList⟩

def queryStreamRequestLine (base : List Char) : HttpRequestLine :=
  ⟨"POST".toList, base ++ "/query/stream".toList⟩

def listDocumentsRequestLine (base : List Char) : HttpRequestLine :=
  ⟨"GET".toList, base ++ "/documents".toList⟩

def deleteDocumentRequestLine (base filename : List Char) : HttpRequestLine :=
  ⟨"DELETE".toList, base ++ "/documents/".toList ++ encodeURIComponent filename⟩

def healthCheckRequestLine (base : List Char) : HttpRequestLine :=
  ⟨"GET".toList, base ++ "/".toList⟩

/-- C7: the method and target of every client operation, for every
base URL and filename, with the delete filename URL-encoded; the final
conjunct checks the encoder on a name needing escaping. -/
theorem apiclient_endpoints (base filename : List Char) :
    uploadRequestLine base = ⟨"POST".toList, base ++ "/upload".toList⟩ ∧
    queryRequestLine base = ⟨"POST".toList, base ++ "/query".toList⟩ ∧
    queryStreamRequestLine base = ⟨"POST".toList, base ++ "/query/stream".toList⟩ ∧
    listDocumentsRequestLine base = ⟨"GET".toList, base ++ "/documents".toList⟩ ∧
    deleteDocumentRequestLine base filename
      = ⟨"DELETE".toList, base ++ "/documents/".toList ++ encodeURIComponent filename⟩ ∧
    healthCheckRequestLine base = ⟨"GET".toList, base ++ "/".toList⟩ ∧
    encodeURIComponent "my file (1).txt".toList = "my%20file%20(1).txt".toList :=
  ⟨rfl, rfl, rfl, rfl, rfl, rfl, by decide⟩

/-! ### The document uploader

From src/unnamed/part_003, lines 18-51: handleFile computes the final
dot-separated segment of the file name, lowercases it, prepends a dot
and rejects the file with an error status unless the result is a listed
extension; otherwise it calls uploadDocument once and records success
or the caught failure. -/

def validExtensions : List (List Char) :=
  [".pdf".toList, ".docx".toList, ".doc".toList, ".md".toList,
   ".markdown".toList, ".txt".toList]

/-- The expression dot-plus-lowercased-last-split-segment of the
source; the trailing segment of splitSep is exactly the popped last
element of the split. -/
def fileExtOf (name : List Char) : List Char :=
  '.' :: ((splitSep '.' name).2.map Char.toLower)

inductive UploadStatusType
  | idle
  | success
  | failure
deriving DecidableEq

/-- Observable outcome of handleFile: the filenames passed to
uploadDocument, and the status banner type set at the end. -/
structure UploadOutcome where
  uploadCalls : List (List Char)
  statusType : UploadStatusType
deriving DecidableEq

def handleFile (name : List Char) (uploadResult : Except (List Char) Unit) :
    UploadOutcome :=
  if (validExtensions.contains (fileExtOf name) : Bool) = false then
    ⟨[], UploadStatusType.failure⟩
  else
    match uploadResult with
    | Except.ok _ => ⟨[name], UploadStatusType.success⟩
    | Except.error _ => ⟨[name], UploadStatusType.failure⟩

/-- C9: a file whose lowercased final extension is not accepted gets an
error status and no upload call, and a file with an accepted extension
is uploaded exactly once, whatever the upload result. -/
theorem uploader_extension_gate (name : List Char)
    (uploadResult : Except (List Char) Unit) :
    (validExtensions.contains (fileExtOf name) = false →
       handleFile name uploadResult = ⟨[], UploadStatusType.failure⟩) ∧
    (validExtensions.contains (fileExtOf name) = true →
       (handleFile name uploadResult).uploadCalls = [name]) := by
  constructor
  · intro h
    have h2 : fileExtOf name ∉ validExtensions := by simpa using h
    simp [handleFile, h2]
  · intro h
    have h2 : fileExtOf name ∈ validExtensions := by simpa using h
    cases uploadResult <;> simp [handleFile, h2]

/-- Witness for C9 on a rejected and an accepted concrete filename. -/
theorem uploader_extension_gate_witness :
    handleFile "pic.png".toList (Except.ok ())
        = ⟨[], UploadStatusType.failure⟩ ∧
    (handleFile "Notes.TXT".toList (Except.ok ())).uploadCalls
        = ["Notes.TXT".toList] :=
  ⟨(uploader_extension_gate "pic.png".toList (Except.ok ())).1 (by decide),
   (uploader_extension_gate "Notes.TXT".toList (Except.ok ())).2 (by decide)⟩

/-! ### The chunker

Modelled from the spec: backend chunking.py is not under src/.  The
spec describes the chunker as splitting text into overlapping
fixed-size windows, a chunk being a contiguous slice of a document
bounded by a fixed token budget and overlap; the README configuration
section fixes chunk size 1000 tokens and overlap 200 tokens.  The
window start therefore advances by size minus overlap.  Recursion is
driven by a fuel argument bounded by the text length so that the
definition computes structurally. -/

def chunkTextAux {α : Type} (size overlap : Nat) : Nat → List α → List (List α)
  | 0, text => [text]
  | fuel + 1, text =>
    if text.length ≤ size ∨ size ≤ overlap then [text]
    else text.take size :: chunkTextAux size overlap fuel (text.drop (size - overlap))

/-- Modelled from the spec: splits a token list into overlapping
windows of at most size tokens whose starts advance by size minus
overlap. -/
def chunkText {α : Type} (size overlap : Nat) (text : List α) : List (List α) :=
  chunkTextAux size overlap text.length text

/-- Modelled from the spec: the configured chunk size of 1000 tokens. -/
def ragChunkSize : Nat := 1000

/-- Modelled from the spec: the configured chunk overlap of 200
tokens. -/
def ragChunkOverlap : Nat := 200

/-- The chunker at the deployed configuration. -/
def ragChunk {α : Type} (text : List α) : List (List α) :=
  chunkText ragChunkSize ragChunkOverlap text

theorem chunkTextAux_mem_slice {α : Type} (size overlap : Nat) (hso : overlap < size) :
    ∀ (fuel : Nat) (text : List α), text.length ≤ fuel →
      ∀ c ∈ chunkTextAux size overlap fuel text,
        ∃ i, c = (text.drop i).take size := by
  intro fuel
  induction fuel with
  | zero =>
    intro text hlen c hc
    have ht : text = [] := List.length_eq_zero.mp (Nat.le_zero.mp hlen)
    subst ht
    have hc2 : c = [] := by simpa [chunkTextAux] using hc
    exact ⟨0, by simp [hc2]⟩
  | succ fuel ih =>
    intro text hlen c hc
    simp only [chunkTextAux] at hc
    by_cases hb : text.length ≤ size ∨ size ≤ overlap
    · rw [if_pos hb] at hc
      have hle : text.length ≤ size := hb.resolve_right (Nat.not_le.mpr hso)
      have hc2 : c = text := by simpa using hc
      exact ⟨0, by rw [List.drop_zero, List.take_of_length_le hle, hc2]⟩
    · rw [if_neg hb] at hc
      push_neg at hb
      rcases List.mem_cons.mp hc with h | h
      · exact ⟨0, by rw [List.drop_zero]; exact h⟩
      · have hlen2 : (text.drop (size - overlap)).length ≤ fuel := by
          rw [List.length_drop]; omega
        obtain ⟨i, hi⟩ := ih (text.drop (size - overlap)) hlen2 c h
        rw [List.drop_drop] at hi
        exact ⟨size - overlap + i, hi⟩

theorem chunkTextAux_consecutive {α : Type} (size overlap : Nat) (hso : overlap < size) :
    ∀ (fuel : Nat) (text : List α), text.length ≤ fuel →
      ∀ i c₁ c₂, (chunkTextAux size overlap fuel text)[i]? = some c₁ →
        (chunkTextAux size overlap fuel text)[i + 1]? = some c₂ →
        c₁.drop (size - overlap) = c₂.take overlap := by
  intro fuel
  induction fuel with
  | zero =>
    intro text hlen i c₁ c₂ h1 h2
    have h3 : ([text] : List (List α))[i + 1]? = some c₂ := by
      rw [chunkTextAux] at h2
      exact h2
    simp at h3
  | succ fuel ih =>
    intro text hlen i c₁ c₂ h1 h2
    simp only [chunkTextAux] at h1 h2
    by_cases hb : text.length ≤ size ∨ size ≤ overlap
    · rw [if_pos hb] at h2
      simp at h2
    · rw [if_neg hb] at h1 h2
      push_neg at hb
      cases i with
      | zero =>
        simp only [List.getElem?_cons_zero, Option.some_inj] at h1
        simp only [List.getElem?_cons_succ] at h2
        cases fuel with
        | zero =>
          exfalso
          omega
        | succ fuel2 =>
          simp only [chunkTextAux] at h2
          by_cases hb2 : (text.drop (size - overlap)).length ≤ size ∨ size ≤ overlap
          · rw [if_pos hb2] at h2
            simp only [List.getElem?_cons_zero, Option.some_inj] at h2
            rw [← h1, ← h2, List.drop_take]
            congr 1
            omega
          · rw [if_neg hb2] at h2
            simp only [List.getElem?_cons_zero, Option.some_inj] at h2
            rw [← h1, ← h2, List.drop_take, List.take_take]
            congr 1
            omega
      | succ i =>
        simp only [List.getElem?_cons_succ] at h1 h2
        exact ih (text.drop (size - overlap)) (by rw [List.length_drop]; omega)
          i c₁ c₂ h1 h2

/-- C3: every chunk is a contiguous slice of the text of length at most
the size bound, consecutive chunks share exactly the configured
overlap, and the deployed configuration has overlap below size. -/
theorem chunker_fixed_windows {α : Type} (size overlap : Nat) (hso : overlap < size)
    (text : List α) :
    (∀ c ∈ chunkText size overlap text,
       (∃ i, c = (text.drop i).take size) ∧ c.length ≤ size) ∧
    (∀ i c₁ c₂, (chunkText size overlap text)[i]? = some c₁ →
       (chunkText size overlap text)[i + 1]? = some c₂ →
       c₁.drop (size - overlap) = c₂.take overlap) ∧
    ragChunkOverlap < ragChunkSize := by
  refine ⟨fun c hc => ?_, fun i c₁ c₂ h1 h2 => ?_, by decide⟩
  · obtain ⟨i, hi⟩ :=
      chunkTextAux_mem_slice size overlap hso text.length text le_rfl c hc
    exact ⟨⟨i, hi⟩, by rw [hi]; exact List.length_take_le _ _⟩
  · exact chunkTextAux_consecutive size overlap hso text.length text le_rfl i c₁ c₂ h1 h2

/-- Witness for C3 at a small concrete configuration and text. -/
theorem chunker_fixed_windows_witness :
    ([0, 1, 2] : List Nat).drop (3 - 1) = ([2, 3, 4] : List Nat).take 1 ∧
    (∃ i, ([0, 1, 2] : List Nat) = (([0, 1, 2, 3, 4] : List Nat).drop i).take 3) :=
  ⟨(chunker_fixed_windows 3 1 (by decide) [0, 1, 2, 3, 4]).2.1 0 [0, 1, 2] [2, 3, 4]
     (by decide) (by decide),
   ((chunker_fixed_windows 3 1 (by decide) [0, 1, 2, 3, 4]).1 [0, 1, 2] (by decide)).1⟩

/-! ### The embedding cache

Modelled from the spec: backend embeddings.py is not under src/.  The
spec describes the cache as hashing the chunk text and storing and
retrieving vector embeddings in a local key-value store to avoid
recomputation.  The store is an association list keyed by the text
hash; the hosted embedding model is an arbitrary compute function, and
the Boolean of getEmbedding records whether compute was invoked. -/

abbrev EmbVector := List Int

/-- Modelled from the spec: a deterministic hash of the chunk text. -/
def hashText (t : List Char) : Nat :=
  t.foldl (fun h c => h * 1000003 + c.toNat) 0

structure EmbCache where
  entries : List (Nat × EmbVector)
deriving DecidableEq

def cacheLookup (c : EmbCache) (k : Nat) : Option EmbVector :=
  (c.entries.find? fun p => p.1 == k).map Prod.snd

/-- Modelled from the spec: look the text hash up in the store; on a
hit return the stored vector without recomputation, on a miss compute
the vector, store it under the hash and report that compute ran. -/
def getEmbedding (compute : List Char → EmbVector) (c : EmbCache)
    (t : List Char) : EmbVector × EmbCache × Bool :=
  match cacheLookup c (hashText t) with
  | some v => (v, c, false)
  | none =>
    let v := compute t
    (v, ⟨(hashText t, v) :: c.entries⟩, true)

/-- Embedding a sequence of chunk texts, threading the cache. -/
def embedAll (compute : List Char → EmbVector) (c : EmbCache) :
    List (List Char) → List EmbVector × EmbCache
  | [] => ([], c)
  | t :: ts =>
    let r := getEmbedding compute c t
    let rest := embedAll compute r.2.1 ts
    (r.1 :: rest.1, rest.2)

theorem getEmbedding_hit (compute : List Char → EmbVector) (c : EmbCache)
    (t : List Char) (v : EmbVector) (h : cacheLookup c (hashText t) = some v) :
    getEmbedding compute c t = (v, c, false) := by
  unfold getEmbedding
  rw [h]

theorem getEmbedding_miss (compute : List Char → EmbVector) (c : EmbCache)
    (t : List Char) (h : cacheLookup c (hashText t) = none) :
    getEmbedding compute c t
      = (compute t, ⟨(hashText t, compute t) :: c.entries⟩, true) := by
  unfold getEmbedding
  rw [h]

theorem cacheLookup_getEmbedding_self (compute : List Char → EmbVector)
    (c : EmbCache) (t : List Char) :
    cacheLookup (getEmbedding compute c t).2.1 (hashText t)
      = some (getEmbedding compute c t).1 := by
  cases hl : cacheLookup c (hashText t) with
  | some v => rw [getEmbedding_hit compute c t v hl]; exact hl
  | none =>
    rw [getEmbedding_miss compute c t hl]
    simp [cacheLookup, List.find?]

theorem cacheLookup_getEmbedding_mono (compute : List Char → EmbVector)
    (c : EmbCache) (u : List Char) (k : Nat) (v : EmbVector)
    (h : cacheLookup c k = some v) :
    cacheLookup (getEmbedding compute c u).2.1 k = some v := by
  cases hl : cacheLookup c (hashText u) with
  | some w => rw [getEmbedding_hit compute c u w hl]; exact h
  | none =>
    have hne : hashText u ≠ k := by
      intro he
      rw [← he, hl] at h
      exact Option.noConfusion h
    rw [getEmbedding_miss compute c u hl]
    unfold cacheLookup at h ⊢
    simp only [List.find?]
    have hbeq : (hashText u == k) = false := by simp [hne]
    rw [hbeq]
    exact h

theorem getEmbedding_idempotent (compute : List Char → EmbVector)
    (c : EmbCache) (t : List Char) :
    getEmbedding compute (getEmbedding compute c t).2.1 t
      = ((getEmbedding compute c t).1, (getEmbedding compute c t).2.1, false) :=
  getEmbedding_hit compute _ t _ (cacheLookup_getEmbedding_self compute c t)

theorem embedAll_lookup_mono (compute : List Char → EmbVector) (k : Nat)
    (v : EmbVector) :
    ∀ (ts : List (List Char)) (c : EmbCache), cacheLookup c k = some v →
      cacheLookup (embedAll compute c ts).2 k = some v := by
  intro ts
  induction ts with
  | nil => intro c h; exact h
  | cons t ts ih =>
    intro c h
    exact ih _ (cacheLookup_getEmbedding_mono compute c t k v h)

theorem embedAll_result_lookup (compute : List Char → EmbVector) :
    ∀ (ts : List (List Char)) (c : EmbCache) (i : Nat) (t : List Char),
      ts[i]? = some t →
      ∃ v, (embedAll compute c ts).1[i]? = some v ∧
        cacheLookup (embedAll compute c ts).2 (hashText t) = some v := by
  intro ts
  induction ts with
  | nil => intro c i t h; simp at h
  | cons u ts ih =>
    intro c i t h
    cases i with
    | zero =>
      simp only [List.getElem?_cons_zero, Option.some_inj] at h
      cases h
      refine ⟨(getEmbedding compute c u).1, ?_, ?_⟩
      · simp [embedAll]
      · exact embedAll_lookup_mono compute _ _ ts _
          (cacheLookup_getEmbedding_self compute c u)
    | succ i =>
      simp only [List.getElem?_cons_succ] at h
      obtain ⟨v, hv1, hv2⟩ := ih (getEmbedding compute c u).2.1 i t h
      exact ⟨v, by simpa [embedAll] using hv1, by simpa [embedAll] using hv2⟩

/-- C4: a second embedding request for the identical text returns the
stored vector, leaves the store unchanged and does not recompute, and
within any run two positions holding equal chunk texts receive equal
vectors, so lookup behaves as a deterministic function of the text. -/
theorem embedding_cache_behavior :
    (∀ (compute : List Char → EmbVector) (c : EmbCache) (t : List Char),
       getEmbedding compute (getEmbedding compute c t).2.1 t
         = ((getEmbedding compute c t).1, (getEmbedding compute c t).2.1, false)) ∧
    (∀ (compute : List Char → EmbVector) (c : EmbCache) (ts : List (List Char))
       (i j : Nat) (t : List Char),
       ts[i]? = some t → ts[j]? = some t →
       (embedAll compute c ts).1[i]? = (embedAll compute c ts).1[j]?) := by
  refine ⟨getEmbedding_idempotent, ?_⟩
  intro compute c ts i j t hi hj
  obtain ⟨v, hv1, hv2⟩ := embedAll_result_lookup compute ts c i t hi
  obtain ⟨w, hw1, hw2⟩ := embedAll_result_lookup compute ts c j t hj
  rw [hv1, hw1]
  rw [hv2] at hw2
  exact hw2

/-- Witness for C4 with a concrete compute function and texts. -/
theorem embedding_cache_behavior_witness :
    getEmbedding (fun t => [Int.ofNat t.length]) ⟨[]⟩ "ab".toList
        = ([2], ⟨[(hashText "ab".toList, [2])]⟩, true) ∧
    getEmbedding (fun t => [Int.ofNat t.length])
        (getEmbedding (fun t => [Int.ofNat t.length]) ⟨[]⟩ "ab".toList).2.1 "ab".toList
      = ((getEmbedding (fun t => [Int.ofNat t.length]) ⟨[]⟩ "ab".toList).1,
         (getEmbedding (fun t => [Int.ofNat t.length]) ⟨[]⟩ "ab".toList).2.1, false) ∧
    (embedAll (fun t => [Int.ofNat t.length]) ⟨[]⟩
        ["ab".toList, "cd".toList, "ab".toList]).1[0]?
      = (embedAll (fun t => [Int.ofNat t.length]) ⟨[]⟩
        ["ab".toList, "cd".toList, "ab".toList]).1[2]? :=
  ⟨rfl,
   embedding_cache_behavior.1 (fun t => [Int.ofNat t.length]) ⟨[]⟩ "ab".toList,
   embedding_cache_behavior.2 (fun t => [Int.ofNat t.length]) ⟨[]⟩
     ["ab".toList, "cd".toList, "ab".toList] 0 2 "ab".toList rfl rfl⟩

/-! ### The hybrid retriever

Modelled from the spec: backend retrieval.py is not under src/.  The
spec describes the retriever as merging vector-similarity ranked
results with keyword-frequency ranked results by a weighted sum of the
two scores with a fixed weighting, then ranking candidates by the
merged score.  The spec fixes only that the weights are constants; the
representative values below give the vector score weight 0.7 and the
keyword score weight 0.3. -/

def vectorWeight : ℚ := 7 / 10

def keywordWeight : ℚ := 3 / 10

/-- Score a result list assigns to a chunk id, zero when absent. -/
def scoreOf (results : List (Nat × ℚ)) (id : Nat) : ℚ :=
  match results.find? (fun p => p.1 == id) with
  | some p => p.2
  | none => 0

def hybridCandidates (vec kw : List (Nat × ℚ)) : List Nat :=
  (vec.map Prod.fst ++ kw.map Prod.fst).dedup

/-- Modelled from the spec: the merged score is the fixed weighted sum
of the vector-similarity and keyword-frequency scores. -/
def hybridScore (vec kw : List (Nat × ℚ)) (id : Nat) : ℚ :=
  vectorWeight * scoreOf vec id + keywordWeight * scoreOf kw id

/-- Descending order on scored candidates. -/
def rankDesc : (Nat × ℚ) → (Nat × ℚ) → Prop := fun a b => b.2 ≤ a.2

instance : DecidableRel rankDesc :=
  fun a b => inferInstanceAs (Decidable (b.2 ≤ a.2))

instance : IsTotal (Nat × ℚ) rankDesc :=
  ⟨fun a b => show b.2 ≤ a.2 ∨ a.2 ≤ b.2 from le_total b.2 a.2⟩

instance : IsTrans (Nat × ℚ) rankDesc :=
  ⟨fun _ _ _ hab hbc => le_trans hbc hab⟩

/-- Modelled from the spec: all candidates of either result list,
scored by the weighted sum and ranked by merged score. -/
def hybridMerge (vec kw : List (Nat × ℚ)) : List (Nat × ℚ) :=
  List.insertionSort rankDesc
    ((hybridCandidates vec kw).map fun id => (id, hybridScore vec kw id))

/-- C2: every entry of the merged result carries as its final score the
fixed weighted sum of its vector and keyword scores, the result is
ranked by descending merged score, and it consists exactly of the
candidates from the two input rankings. -/
theorem hybrid_weighted_sum_ranking (vec kw : List (Nat × ℚ)) :
    (∀ p ∈ hybridMerge vec kw,
       p.2 = vectorWeight * scoreOf vec p.1 + keywordWeight * scoreOf kw p.1) ∧
    List.Sorted rankDesc (hybridMerge vec kw) ∧
    (hybridMerge vec kw).Perm
      ((hybridCandidates vec kw).map fun id => (id, hybridScore vec kw id)) := by
  refine ⟨?_, List.sorted_insertionSort rankDesc _, List.perm_insertionSort rankDesc _⟩
  intro p hp
  have hmem : p ∈ (hybridCandidates vec kw).map fun id => (id, hybridScore vec kw id) :=
    (List.perm_insertionSort rankDesc _).mem_iff.mp hp
  obtain ⟨id, _, hid⟩ := List.mem_map.mp hmem
  rw [← hid]
  rfl

/-- Witness for C2 at a concrete single-candidate query. -/
theorem hybrid_weighted_sum_ranking_witness :
    ((1 : Nat), vectorWeight * 1 + keywordWeight * 0) ∈ hybridMerge [(1, 1)] [] ∧
    (vectorWeight * 1 + keywordWeight * 0 : ℚ)
      = vectorWeight * scoreOf [(1, 1)] 1 + keywordWeight * scoreOf [] 1 :=
  have hm : ((1 : Nat), vectorWeight * 1 + keywordWeight * 0) ∈ hybridMerge [(1, 1)] [] :=
    List.mem_singleton.mpr rfl
  ⟨hm, (hybrid_weighted_sum_ranking [(1, 1)] []).1 _ hm⟩

end RagSystem
